import Mathlib

/-!
# Pipeline event-log query library: a shallow embedding

Embedding of the queries of `DE 4.4 - Pipeline Event Logs.py`:

* the lineage self-join query (CTEs `l1`/`l2`/`l3`, `UNION ALL`,
  `PIVOT (COLLECT_SET(input_dataset) FOR input_depth IN ...)`) as
  `levelRows`, `lineageRows` and `resolve`;
* the latest-update query (`WHERE event_type = create_update
  ORDER BY timestamp DESC LIMIT 1`) as `latest_update_id`;
* the data-quality query (`explode(from_json(details:...expectations))`
  grouped by `(dataset, name)` with `SUM`) as `aggregate`;
* the notebook-level Spark-conf state threading
  (the `spark.conf.set` call for `latest_update.id` and the substitution of
  that key into the later SQL cells) as explicit state passing.
-/

namespace PipelineEventLog

/-- A directed lineage edge `input_dataset -> output_dataset`, derived from a
`(output_dataset, input_datasets)` pair of a `flow_definition` record. -/
structure LineageEdge where
  input_dataset : String
  output_dataset : String
deriving DecidableEq, Repr

/-- One row of the lineage CTEs: `(output_dataset, input_depth, input_dataset)`. -/
structure LineageRow where
  output_dataset : String
  input_depth : Nat
  input_dataset : String
deriving DecidableEq, Repr

/-- The `l1` CTE: one row `(output, 1, input)` per lineage edge. -/
def l1 (E : List LineageEdge) : List LineageRow :=
  E.map (fun e => ⟨e.output_dataset, 1, e.input_dataset⟩)

/-- One self-join step, as in the `l2` and `l3` CTEs:
`FROM prev LEFT JOIN l1 AS lk ON prev.input_dataset = lk.output_dataset
WHERE lk.input_dataset IS NOT NULL` — the left join followed by the
non-null filter keeps exactly the inner-join rows. -/
def nextLevel (E : List LineageEdge) (prev : List LineageRow) (k : Nat) :
    List LineageRow :=
  prev.flatMap (fun p =>
    ((l1 E).filter (fun q => p.input_dataset = q.output_dataset)).map
      (fun q => ⟨p.output_dataset, k, q.input_dataset⟩))

/-- The `l2` CTE of the notebook. -/
def l2 (E : List LineageEdge) : List LineageRow := nextLevel E (l1 E) 2

/-- The `l3` CTE of the notebook. -/
def l3 (E : List LineageEdge) : List LineageRow := nextLevel E (l2 E) 3

/-- Depth-`k` rows: the fixed notebook chain `l1`, `l2`, `l3` continued to
an arbitrary depth (each level self-joins the previous one against `l1`). -/
def levelRows (E : List LineageEdge) : Nat → List LineageRow
  | 0 => []
  | 1 => l1 E
  | k + 2 => nextLevel E (levelRows E (k + 1)) (k + 2)

/-- The `UNION ALL` of the levels `1 .. maxDepth` (the notebook unions
`l1`, `l2`, `l3`). -/
def lineageRows (E : List LineageEdge) (maxDepth : Nat) : List LineageRow :=
  (List.range maxDepth).flatMap (fun i => levelRows E (i + 1))

/-- The Spark `COLLECT_SET` aggregate: the values with duplicates removed. -/
def collect_set (xs : List String) : List String := xs.dedup

/-- The answer of the lineage query for one output dataset: the
`PIVOT (COLLECT_SET(input_dataset) FOR input_depth IN (...))` cell of the
row grouped on `root`, at column `depth`. -/
def resolve (E : List LineageEdge) (root : String) (maxDepth depth : Nat) :
    List String :=
  collect_set (((lineageRows E maxDepth).filter
    (fun row => row.output_dataset = root ∧ row.input_depth = depth)).map
    (fun row => row.input_dataset))

/-- `x` reaches `root` through a directed path of exactly `k` edges. -/
def reachesAtB (E : List LineageEdge) (x root : String) : Nat → Bool
  | 0 => false
  | 1 => E.any (fun e => e.input_dataset = x && e.output_dataset = root)
  | k + 2 => E.any (fun e =>
      e.input_dataset = x && reachesAtB E e.output_dataset root (k + 1))

/-- The notebook CTE `l2` is the depth-2 level of the generalised chain. -/
theorem levelRows_two (E : List LineageEdge) : levelRows E 2 = l2 E := rfl

/-- The notebook CTE `l3` is the depth-3 level of the generalised chain. -/
theorem levelRows_three (E : List LineageEdge) : levelRows E 3 = l3 E := rfl

/-- One element of the `details:flow_progress:data_quality:expectations`
array, per the schema the notebook passes to `from_json`:
`array<struct<name: string, dataset: string, passed_records: int,
failed_records: int>>`. -/
structure Expectation where
  name : String
  dataset : String
  passed_records : Int
  failed_records : Int
deriving DecidableEq, Repr

/-- The semi-structured `details` payload, one parsed shape per event type.
`flow_progress none` stands for a `flow_progress` record whose
`data_quality.expectations` field is missing or fails to parse under the
from_json schema of the notebook (Spark then yields `null`);
`other` stands for every payload of a different shape. -/
inductive Details where
  | flow_progress (expectations : Option (List Expectation))
  | flow_definition (output_dataset : String) (input_datasets : List String)
  | other
deriving DecidableEq, Repr

/-- The `origin` struct of an event record (only `update_id` is read). -/
structure Origin where
  update_id : String
deriving DecidableEq, Repr

/-- A row of the `event_log_raw` view. -/
structure EventRecord where
  event_type : String
  timestamp : Int
  origin : Origin
  details : Details
deriving DecidableEq, Repr

/-- The `expectations` array of a `details` payload when it parses,
`none` otherwise — the value of
`from_json(details:flow_progress:data_quality:expectations, schema)`. -/
def detailsExpectations : Details → Option (List Expectation)
  | .flow_progress es => es
  | _ => none

/-- The lineage edges of the `flow_definition` records of one update:
`details:flow_definition.output_dataset` paired with each member of
`details:flow_definition.input_datasets` (the notebook applies
`regexp_extract_all` and `explode` to the serialized array). -/
def flow_edges (records : List EventRecord) (uid : String) : List LineageEdge :=
  (records.filter (fun r =>
      r.event_type = "flow_definition" && r.origin.update_id = uid)).flatMap
    (fun r => match r.details with
      | .flow_definition out ins => ins.map (fun i => ⟨i, out⟩)
      | _ => [])

/-- The errors the query cells can surface. `NotFoundError` is the failure
of `.first()` on the empty result of the latest-update query. -/
inductive QueryError where
  | NotFoundError
deriving DecidableEq, Repr

deriving instance DecidableEq for Except

/-- Of two rows, the one the descending timestamp sort ranks first (the
earlier row on ties, as a stable sort would). -/
def pickLater (best r2 : EventRecord) : EventRecord :=
  if best.timestamp < r2.timestamp then r2 else best

/-- The latest-update query:
`SELECT origin.update_id FROM event_log_raw WHERE event_type =
create_update ORDER BY timestamp DESC LIMIT 1`, then `.first().update_id`.
The fold keeps the row with the maximal timestamp; an empty result fails
(`.first()` yields no row). -/
def latest_update_id (records : List EventRecord) : Except QueryError String :=
  match records.filter (fun r => r.event_type = "create_update") with
  | [] => .error .NotFoundError
  | r :: rs => .ok ((rs.foldl pickLater r).origin.update_id)

/-- The exploded expectation rows of the data-quality query: records filtered
to `event_type = flow_progress` and the chosen `update_id`, each
contributing the elements of its parsed `expectations` array
(`explode` of a `null` parse contributes no rows). -/
def explodeExpectations (records : List EventRecord) (uid : String) :
    List Expectation :=
  (records.filter (fun r =>
      r.event_type = "flow_progress" && r.origin.update_id = uid)).flatMap
    (fun r => (detailsExpectations r.details).getD [])

/-- One output row of the data-quality query. -/
structure QualityRow where
  dataset : String
  expectation : String
  passing_records : Int
  failing_records : Int
deriving DecidableEq, Repr

/-- The data-quality query: `GROUP BY row_expectations.dataset,
row_expectations.name` with `SUM(passed_records)` and `SUM(failed_records)`
over the exploded expectation rows. -/
def aggregate (records : List EventRecord) (uid : String) : List QualityRow :=
  let exps := explodeExpectations records uid
  (((exps.map (fun e => (e.dataset, e.name))).dedup).map (fun k =>
    ⟨k.1, k.2,
      ((exps.filter (fun e => e.dataset = k.1 && e.name = k.2)).map
        (fun e => e.passed_records)).sum,
      ((exps.filter (fun e => e.dataset = k.1 && e.name = k.2)).map
        (fun e => e.failed_records)).sum⟩))

/-- The Spark session configuration the notebook threads between cells:
an association list read through its first matching key. -/
abbrev SparkConf : Type := List (String × String)

/-- `spark.conf.set`: the new binding shadows any earlier one. -/
def conf_set (conf : SparkConf) (key v : String) : SparkConf :=
  (key, v) :: conf

/-- `spark.conf.get`, also the SQL substitution: the first matching binding. -/
def conf_get (conf : SparkConf) (key : String) : Option String :=
  (conf.find? (fun p => p.1 = key)).map (fun p => p.2)

/-- The `Set Latest Update ID` cell: runs `latest_update_id` on the log and
pushes the result back into the Spark config under `latest_update.id`
(the `spark.conf.set` call on the key `latest_update.id`). -/
def set_latest_update_step (log : List EventRecord) (conf : SparkConf) :
    Except QueryError (SparkConf × String) :=
  (latest_update_id log).map
    (fun u => (conf_set conf "latest_update.id" u, u))

/-- The data-quality cell: reads the key `latest_update.id` from the Spark
config, aggregates, and leaves the config as it was. -/
def quality_metrics_step (log : List EventRecord) (conf : SparkConf) :
    SparkConf × List QualityRow :=
  (conf, aggregate log ((conf_get conf "latest_update.id").getD ""))

/-- The lineage cell: reads the key `latest_update.id` from the Spark config,
resolves lineage for one root to depth 3 (the notebook CTEs `l1`/`l2`/`l3`),
and leaves the config as it was. -/
def lineage_step (log : List EventRecord) (conf : SparkConf)
    (root : String) (depth : Nat) : SparkConf × List String :=
  (conf,
    resolve (flow_edges log ((conf_get conf "latest_update.id").getD ""))
      root 3 depth)

section Fixtures

/-- The diamond fixture `{A->B, A->C, B->D, C->D}`. -/
def diamondE : List LineageEdge :=
  [⟨"A", "B"⟩, ⟨"A", "C"⟩, ⟨"B", "D"⟩, ⟨"C", "D"⟩]

/-- The two-cycle fixture `{A->B, B->A}`. -/
def cycleE : List LineageEdge := [⟨"A", "B"⟩, ⟨"B", "A"⟩]

example : resolve diamondE "D" 3 1 = ["B", "C"] := by decide
example : resolve diamondE "D" 3 2 = ["A"] := by decide
example : resolve diamondE "D" 3 3 = [] := by decide
example : resolve cycleE "A" 4 1 = ["B"] := by decide
example : resolve cycleE "A" 4 2 = ["A"] := by decide
example : resolve cycleE "A" 4 3 = ["B"] := by decide
example : resolve cycleE "A" 4 4 = ["A"] := by decide

/-- Three `create_update` records with timestamps 1 < 2 < 3. -/
def latestFixture : List EventRecord :=
  [⟨"create_update", 1, ⟨"u1"⟩, .other⟩,
   ⟨"create_update", 3, ⟨"u3"⟩, .other⟩,
   ⟨"create_update", 2, ⟨"u2"⟩, .other⟩]

example : latest_update_id latestFixture = .ok "u3" := by decide
example : latest_update_id [] = .error .NotFoundError := by decide

/-- Two `flow_progress` records of update `u1`, each reporting the
expectation `valid_id` on dataset `orders`. -/
def qualityFixture : List EventRecord :=
  [⟨"flow_progress", 10, ⟨"u1"⟩,
      .flow_progress (some [⟨"valid_id", "orders", 10, 2⟩])⟩,
   ⟨"flow_progress", 11, ⟨"u1"⟩,
      .flow_progress (some [⟨"valid_id", "orders", 5, 1⟩])⟩]

example : aggregate qualityFixture "u1" = [⟨"orders", "valid_id", 15, 3⟩] := by
  decide

/-- A `flow_progress` record of update `u1` whose `details` payload fails to
parse. -/
def malformedRecord : EventRecord :=
  ⟨"flow_progress", 12, ⟨"u1"⟩, .flow_progress none⟩

example :
    aggregate (qualityFixture ++ [malformedRecord]) "u1" =
      [⟨"orders", "valid_id", 15, 3⟩] := by decide

/-- A log whose latest update is `u2`: one `create_update` record and one
`flow_progress` record of that update. -/
def stateFixtureLog : List EventRecord :=
  [⟨"create_update", 5, ⟨"u2"⟩, .other⟩,
   ⟨"flow_progress", 6, ⟨"u2"⟩,
      .flow_progress (some [⟨"valid_id", "orders", 7, 4⟩])⟩]

/-- A Spark config still holding `u1`, the id of the previous run. -/
def stateFixtureConf : SparkConf := conf_set [] "latest_update.id" "u1"

end Fixtures

/-- A row belongs to the depth-`k` level exactly when it records a directed
path of `k` edges from its input dataset to its output dataset. -/
theorem mem_levelRows (E : List LineageEdge) (k : Nat) (row : LineageRow) :
    row ∈ levelRows E (k + 1) ↔
      row.input_depth = k + 1 ∧
        reachesAtB E row.input_dataset row.output_dataset (k + 1) = true := by
  induction k generalizing row with
  | zero =>
    obtain ⟨o, d, x⟩ := row
    simp only [levelRows, l1, reachesAtB, List.mem_map, List.any_eq_true,
      LineageRow.mk.injEq, Bool.and_eq_true, decide_eq_true_eq]
    constructor
    · rintro ⟨e, he, rfl, rfl, rfl⟩
      exact ⟨rfl, e, he, rfl, rfl⟩
    · rintro ⟨rfl, e, he, rfl, rfl⟩
      exact ⟨e, he, rfl, rfl, rfl⟩
  | succ k ih =>
    obtain ⟨o, d, x⟩ := row
    show ⟨o, d, x⟩ ∈ nextLevel E (levelRows E (k + 1)) (k + 2) ↔ _
    simp only [nextLevel, l1, List.mem_flatMap, List.mem_map, List.mem_filter,
      LineageRow.mk.injEq, decide_eq_true_eq, reachesAtB, List.any_eq_true,
      Bool.and_eq_true]
    constructor
    · rintro ⟨p, hp, q, ⟨⟨e, he, rfl⟩, hpq⟩, rfl, rfl, rfl⟩
      obtain ⟨hd, hr⟩ := (ih p).mp hp
      refine ⟨rfl, e, he, rfl, ?_⟩
      have hpq2 : p.input_dataset = e.output_dataset := hpq
      rw [← hpq2]
      exact hr
    · rintro ⟨rfl, e, he, rfl, hr⟩
      refine ⟨⟨o, k + 1, e.output_dataset⟩, ?_, ⟨e.output_dataset, 1,
        e.input_dataset⟩, ⟨⟨e, he, rfl⟩, rfl⟩, rfl, rfl, rfl⟩
      exact (ih ⟨o, k + 1, e.output_dataset⟩).mpr ⟨rfl, hr⟩

/-- A dataset is in the lineage answer cell `(root, depth k)` of the query
with bound `d` exactly when `1 ≤ k ≤ d` and some directed path of `k` edges
leads from it to `root`. -/
theorem mem_resolve (E : List LineageEdge) (r : String) (d k : Nat)
    (x : String) :
    x ∈ resolve E r d k ↔ 1 ≤ k ∧ k ≤ d ∧ reachesAtB E x r k = true := by
  simp only [resolve, collect_set, lineageRows, List.mem_dedup, List.mem_map,
    List.mem_filter, List.mem_flatMap, List.mem_range, decide_eq_true_eq]
  constructor
  · rintro ⟨row, ⟨⟨i, hi, hrow⟩, ho, hd⟩, hx⟩
    obtain ⟨hdep, hr⟩ := (mem_levelRows E i row).mp hrow
    have hk : k = i + 1 := by omega
    refine ⟨by omega, by omega, ?_⟩
    rw [← hx, ← ho, hk]
    exact hr
  · rintro ⟨hk1, hkd, hr⟩
    obtain ⟨j, rfl⟩ : ∃ j, k = j + 1 := ⟨k - 1, by omega⟩
    exact ⟨⟨r, j + 1, x⟩,
      ⟨⟨j, by omega, (mem_levelRows E j ⟨r, j + 1, x⟩).mpr ⟨rfl, hr⟩⟩, rfl, rfl⟩,
      rfl⟩

/-- If no dataset reaches `r` in exactly `t` edges (`t ≥ 1`), none reaches it
in `t + 1` edges: each longer path factors through a length-`t` tail. -/
theorem reachesAtB_succ_false (E : List LineageEdge) (r : String) (t : Nat)
    (ht : 1 ≤ t) (h : ∀ x, reachesAtB E x r t = false) :
    ∀ x, reachesAtB E x r (t + 1) = false := by
  obtain ⟨j, rfl⟩ : ∃ j, t = j + 1 := ⟨t - 1, by omega⟩
  intro x
  show reachesAtB E x r (j + 2) = false
  rw [show reachesAtB E x r (j + 2) =
      E.any (fun e => e.input_dataset = x &&
        reachesAtB E e.output_dataset r (j + 1)) from rfl]
  rw [List.any_eq_false]
  intro e _
  rw [h e.output_dataset]
  simp

/-- Once a level is unreachable, every deeper level is unreachable. -/
theorem reachesAtB_false_of_le (E : List LineageEdge) (r : String) (t : Nat)
    (ht : 1 ≤ t) (h : ∀ x, reachesAtB E x r t = false) :
    ∀ k, t ≤ k → ∀ x, reachesAtB E x r k = false := by
  intro k hk
  induction k, hk using Nat.le_induction with
  | base => exact h
  | succ n hn ih => exact reachesAtB_succ_false E r n (by omega) ih

/-- Claim C3: once a depth level `t` (within `1 .. d`) of the lineage result is
empty, the result has saturated: `resolve(E, r, d)` returns the empty set —
not an error — at every depth level `k ≥ t`, so the result stops growing. -/
theorem resolve_saturates (E : List LineageEdge) (r : String) (d t : Nat)
    (ht : 1 ≤ t) (htd : t ≤ d) (hsat : resolve E r d t = []) :
    ∀ k, t ≤ k → resolve E r d k = [] := by
  have hno : ∀ x, reachesAtB E x r t = false := by
    intro x
    cases hb : reachesAtB E x r t with
    | false => rfl
    | true =>
      have hx : x ∈ resolve E r d t :=
        (mem_resolve E r d t x).mpr ⟨ht, htd, hb⟩
      rw [hsat] at hx
      exact absurd hx (List.not_mem_nil x)
  intro k hk
  rw [List.eq_nil_iff_forall_not_mem]
  intro x hx
  obtain ⟨h1, h2, h3⟩ := (mem_resolve E r d k x).mp hx
  rw [reachesAtB_false_of_le E r t ht hno k hk x] at h3
  exact Bool.false_ne_true h3

/-- Claim C3 witness: in the diamond graph nothing is reachable from `D` at depth
3, and the result is still the empty set at the later depth 7. -/
theorem resolve_saturates_witness : resolve diamondE "D" 3 7 = [] :=
  resolve_saturates diamondE "D" 3 3 (by decide) (by decide) (by decide) 7
    (by decide)

/-- Claim C7: when the root is not the output dataset of any edge, the lineage
query does not error: every depth level of the result is the empty set. -/
theorem resolve_missing_root (E : List LineageEdge) (root : String) (d : Nat)
    (h : ∀ e ∈ E, e.output_dataset ≠ root) :
    ∀ k, resolve E root d k = [] := by
  have h1 : ∀ x, reachesAtB E x root 1 = false := by
    intro x
    rw [show reachesAtB E x root 1 =
        E.any (fun e => e.input_dataset = x && e.output_dataset = root)
      from rfl]
    rw [List.any_eq_false]
    intro e he
    simp [h e he]
  intro k
  rw [List.eq_nil_iff_forall_not_mem]
  intro x hx
  obtain ⟨hk1, _, hr⟩ := (mem_resolve E root d k x).mp hx
  rw [reachesAtB_false_of_le E root 1 (le_refl 1) h1 k hk1 x] at hr
  exact Bool.false_ne_true hr

/-- Claim C7 witness: no edge of the diamond graph outputs `Z`, and the result
at root `Z` is empty at depths 1, 2 and 3. -/
theorem resolve_missing_root_witness :
    resolve diamondE "Z" 3 1 = [] ∧ resolve diamondE "Z" 3 2 = [] ∧
      resolve diamondE "Z" 3 3 = [] :=
  ⟨resolve_missing_root diamondE "Z" 3 (by decide) 1,
   resolve_missing_root diamondE "Z" 3 (by decide) 2,
   resolve_missing_root diamondE "Z" 3 (by decide) 3⟩

/-- Claim C1: at depth 1 the lineage result for root `r` is exactly the set of
direct inputs of `r` — the datasets `x` with an edge `x -> r` — and an edge
`x -> r` derived from the log is exactly an entry `x` in the
`input_datasets` of a `flow_definition` record of the chosen update whose
`output_dataset` is `r`. -/
theorem resolve_depth_one :
    (∀ (E : List LineageEdge) (r x : String),
        x ∈ resolve E r 1 1 ↔ (⟨x, r⟩ : LineageEdge) ∈ E)
    ∧ (∀ (records : List EventRecord) (uid r x : String),
        (⟨x, r⟩ : LineageEdge) ∈ flow_edges records uid ↔
          ∃ rec ∈ records, rec.event_type = "flow_definition" ∧
            rec.origin.update_id = uid ∧
            ∃ ins, rec.details = .flow_definition r ins ∧ x ∈ ins) := by
  constructor
  · intro E r x
    rw [mem_resolve]
    simp only [le_refl, true_and]
    rw [show reachesAtB E x r 1 =
        E.any (fun e => e.input_dataset = x && e.output_dataset = r)
      from rfl]
    simp only [List.any_eq_true, Bool.and_eq_true, decide_eq_true_eq]
    constructor
    · rintro ⟨⟨xi, xo⟩, he, hx, hr⟩
      subst hx
      subst hr
      exact he
    · intro h
      exact ⟨⟨x, r⟩, h, rfl, rfl⟩
  · intro records uid r x
    simp only [flow_edges, List.mem_flatMap, List.mem_filter,
      Bool.and_eq_true, decide_eq_true_eq]
    constructor
    · rintro ⟨rec, ⟨hrec, hty, hid⟩, hmem⟩
      refine ⟨rec, hrec, hty, hid, ?_⟩
      cases hd : rec.details with
      | flow_definition out ins =>
        rw [hd] at hmem
        simp only [List.mem_map, LineageEdge.mk.injEq] at hmem
        obtain ⟨i, hi, hix, hout⟩ := hmem
        subst hix
        subst hout
        exact ⟨ins, rfl, hi⟩
      | flow_progress es =>
        rw [hd] at hmem
        exact absurd hmem (List.not_mem_nil _)
      | other =>
        rw [hd] at hmem
        exact absurd hmem (List.not_mem_nil _)
    · rintro ⟨rec, hrec, hty, hid, ins, hd, hi⟩
      refine ⟨rec, ⟨hrec, hty, hid⟩, ?_⟩
      rw [hd]
      simp only [List.mem_map, LineageEdge.mk.injEq]
      exact ⟨x, hi, rfl, trivial⟩

/-- Claim C2: the lineage result keeps a dataset at every depth at which a path of
that length reaches the root — it never collapses membership to the
shallowest depth; on the diamond `{A->B, A->C, B->D, C->D}` with root `D`
and maxDepth 3, depth 1 holds `{B, C}` and `A` is present at depth 2. -/
theorem resolve_multi_depth :
    (∀ (E : List LineageEdge) (r : String) (d k : Nat) (x : String),
        reachesAtB E x r k = true → 1 ≤ k → k ≤ d → x ∈ resolve E r d k)
    ∧ resolve diamondE "D" 3 1 = ["B", "C"]
    ∧ "A" ∈ resolve diamondE "D" 3 2 := by
  refine ⟨?_, by decide, by decide⟩
  intro E r d k x hr h1 hd
  exact (mem_resolve E r d k x).mpr ⟨h1, hd, hr⟩

/-- The union of levels grows one level at a time. -/
theorem lineageRows_succ (E : List LineageEdge) (d : Nat) :
    lineageRows E (d + 1) = lineageRows E d ++ levelRows E (d + 1) := by
  simp [lineageRows, List.range_succ]

/-- A level of the wrong depth contributes nothing to a depth-`k` cell. -/
theorem filter_levelRows_ne (E : List LineageEdge) (r : String) (k m : Nat)
    (h : m + 1 ≠ k) :
    (levelRows E (m + 1)).filter
        (fun row => row.output_dataset = r ∧ row.input_depth = k) = [] := by
  rw [List.filter_eq_nil_iff]
  intro row hrow
  have hd := ((mem_levelRows E m row).mp hrow).1
  simp [hd, h]

/-- The depth-`k` cell of the unioned-and-pivoted rows is the row list of the
depth-`k` level, filtered on the root, whenever `1 ≤ k ≤ d`. -/
theorem filter_lineageRows (E : List LineageEdge) (r : String) (d k : Nat)
    (h1 : 1 ≤ k) (h2 : k ≤ d) :
    (lineageRows E d).filter
        (fun row => row.output_dataset = r ∧ row.input_depth = k) =
      (levelRows E k).filter (fun row => row.output_dataset = r) := by
  induction d with
  | zero => omega
  | succ d ih =>
    rw [lineageRows_succ, List.filter_append]
    rcases Nat.lt_or_ge k (d + 1) with hlt | hge
    · rw [ih (by omega), filter_levelRows_ne E r k d (by omega),
        List.append_nil]
    · have hk : k = d + 1 := by omega
      subst hk
      have hfirst : (lineageRows E d).filter
          (fun row => row.output_dataset = r ∧ row.input_depth = d + 1) =
            [] := by
        rw [List.filter_eq_nil_iff]
        intro row hrow
        simp only [lineageRows, List.mem_flatMap, List.mem_range] at hrow
        obtain ⟨i, hi, hrowi⟩ := hrow
        have hd := ((mem_levelRows E i row).mp hrowi).1
        simp only [decide_eq_true_eq, not_and]
        intro _
        omega
      rw [hfirst, List.nil_append]
      apply List.filter_congr
      intro row hrow
      have hd := ((mem_levelRows E d row).mp hrow).1
      simp [hd]

/-- `resolve` within bounds is the root-filtered depth-`k` level,
deduplicated. -/
theorem resolve_eq_level (E : List LineageEdge) (r : String) (d k : Nat)
    (h1 : 1 ≤ k) (h2 : k ≤ d) :
    resolve E r d k =
      (((levelRows E k).filter (fun row => row.output_dataset = r)).map
        (fun row => row.input_dataset)).dedup := by
  unfold resolve collect_set
  rw [filter_lineageRows E r d k h1 h2]

/-- On the two-cycle `{A->B, B->A}` the levels alternate for ever. -/
theorem levelRows_cycleE (k : Nat) :
    levelRows cycleE (k + 1) =
      if k % 2 = 0 then [⟨"B", k + 1, "A"⟩, ⟨"A", k + 1, "B"⟩]
      else [⟨"B", k + 1, "B"⟩, ⟨"A", k + 1, "A"⟩] := by
  induction k with
  | zero => rfl
  | succ k ih =>
    show nextLevel cycleE (levelRows cycleE (k + 1)) (k + 2) = _
    rw [ih]
    rcases Nat.mod_two_eq_zero_or_one k with h | h
    · rw [if_pos h, if_neg (by omega)]
      rfl
    · rw [if_neg (by omega), if_pos (by omega)]
      rfl

/-- On the two-cycle, the depth-`k` cell for root `A` alternates between
`{B}` (odd depths) and `{A}` (even depths). -/
theorem resolve_cycleE (d k : Nat) (h1 : 1 ≤ k) (h2 : k ≤ d) :
    resolve cycleE "A" d k = if k % 2 = 1 then ["B"] else ["A"] := by
  obtain ⟨j, rfl⟩ : ∃ j, k = j + 1 := ⟨k - 1, by omega⟩
  rw [resolve_eq_level cycleE "A" d (j + 1) h1 h2, levelRows_cycleE j]
  rcases Nat.mod_two_eq_zero_or_one j with h | h
  · rw [if_pos h, if_pos (by omega)]
    rfl
  · rw [if_neg (by omega), if_neg (by omega)]
    rfl

/-- Claim C8: the depth-bounded expansion is total — it computes a result on every
edge set, cyclic or not — and on the two-cycle `{A->B, B->A}` with root `A`
a dataset reappears with period 2 at every depth within the bound. -/
theorem resolve_cycle_terminates :
    (∀ (E : List LineageEdge) (r : String) (d k : Nat),
        ∃ out, resolve E r d k = out)
    ∧ (∀ d k, 1 ≤ k → k ≤ d →
        resolve cycleE "A" d k = if k % 2 = 1 then ["B"] else ["A"]) :=
  ⟨fun E r d k => ⟨resolve E r d k, rfl⟩,
   fun d k h1 h2 => resolve_cycleE d k h1 h2⟩

/-- Claim C10: each depth cell of the lineage result is duplicate-free
(`COLLECT_SET`), so on the diamond the dataset `A`, reachable at depth 2
via both `B` and `C`, occurs once in the depth-2 cell. -/
theorem resolve_level_nodup :
    (∀ (E : List LineageEdge) (r : String) (d k : Nat),
        (resolve E r d k).Nodup)
    ∧ resolve diamondE "D" 3 2 = ["A"] :=
  ⟨fun E r d k => List.nodup_dedup _, by decide⟩

theorem pickLater_eq_or (r a : EventRecord) :
    pickLater r a = r ∨ pickLater r a = a := by
  unfold pickLater
  split
  · exact Or.inr rfl
  · exact Or.inl rfl

theorem le_pickLater_left (r a : EventRecord) :
    r.timestamp ≤ (pickLater r a).timestamp := by
  unfold pickLater
  split <;> omega

theorem le_pickLater_right (r a : EventRecord) :
    a.timestamp ≤ (pickLater r a).timestamp := by
  unfold pickLater
  split <;> omega

/-- The fold that models `ORDER BY timestamp DESC LIMIT 1` returns one of the
rows, and one whose timestamp bounds the timestamp of every row. -/
theorem foldl_pickLater_spec (rs : List EventRecord) : ∀ r : EventRecord,
    rs.foldl pickLater r ∈ r :: rs ∧
      ∀ r2 ∈ r :: rs, r2.timestamp ≤ (rs.foldl pickLater r).timestamp := by
  induction rs with
  | nil =>
    intro r
    simp
  | cons a rs ih =>
    intro r
    obtain ⟨hmem, hle⟩ := ih (pickLater r a)
    rw [List.foldl_cons]
    constructor
    · rcases List.mem_cons.mp hmem with h | h
      · rcases pickLater_eq_or r a with hp | hp <;> rw [h, hp] <;> simp
      · exact List.mem_cons_of_mem r (List.mem_cons_of_mem a h)
    · intro r2 h2
      have hhead : (pickLater r a).timestamp ≤
          (rs.foldl pickLater (pickLater r a)).timestamp :=
        hle (pickLater r a) (List.mem_cons_self _ _)
      rcases List.mem_cons.mp h2 with h | h
      · rw [h]
        exact le_trans (le_pickLater_left r a) hhead
      · rcases List.mem_cons.mp h with h3 | h3
        · rw [h3]
          exact le_trans (le_pickLater_right r a) hhead
        · exact hle r2 (List.mem_cons_of_mem _ h3)

/-- Claim C4: when the log holds a `create_update` record, the latest-update query
returns the `origin.update_id` of a `create_update` record of maximal
timestamp; when it holds none, the query fails with `NotFoundError`. -/
theorem latest_update_id_spec (records : List EventRecord) :
    match latest_update_id records with
    | .ok u => ∃ r ∈ records, r.event_type = "create_update" ∧
        r.origin.update_id = u ∧
        ∀ r2 ∈ records, r2.event_type = "create_update" →
          r2.timestamp ≤ r.timestamp
    | .error e => e = .NotFoundError ∧
        ∀ r ∈ records, r.event_type ≠ "create_update" := by
  cases hf : records.filter (fun r => r.event_type = "create_update") with
  | nil =>
    simp only [latest_update_id, hf]
    refine ⟨by trivial, ?_⟩
    intro r hr
    have := List.filter_eq_nil_iff.mp hf r hr
    simpa using this
  | cons r0 rs =>
    simp only [latest_update_id, hf]
    obtain ⟨hmem, hle⟩ := foldl_pickLater_spec rs r0
    have hmf : rs.foldl pickLater r0 ∈
        records.filter (fun r => r.event_type = "create_update") := by
      rw [hf]
      exact hmem
    obtain ⟨hin, hty⟩ := List.mem_filter.mp hmf
    refine ⟨rs.foldl pickLater r0, hin, by simpa using hty, rfl, ?_⟩
    intro r2 h2 ht2
    have : r2 ∈ r0 :: rs := by
      rw [← hf]
      exact List.mem_filter.mpr ⟨h2, by simpa using ht2⟩
    exact hle r2 this

/-- Claim C5: a row is in the data-quality result exactly when its
`(dataset, expectation)` key occurs among the exploded expectation rows of
the matching `flow_progress` records and its counts are the per-group sums
of `passed_records` and `failed_records`; each key yields one row, and the
two-record `orders`/`valid_id` fixture yields the single row
`("orders", "valid_id", 15, 3)`. -/
theorem aggregate_spec :
    (∀ (records : List EventRecord) (uid : String) (row : QualityRow),
        row ∈ aggregate records uid ↔
          ((∃ e ∈ explodeExpectations records uid,
              e.dataset = row.dataset ∧ e.name = row.expectation)
            ∧ row.passing_records =
                (((explodeExpectations records uid).filter (fun e =>
                    e.dataset = row.dataset && e.name = row.expectation)).map
                  (fun e => e.passed_records)).sum
            ∧ row.failing_records =
                (((explodeExpectations records uid).filter (fun e =>
                    e.dataset = row.dataset && e.name = row.expectation)).map
                  (fun e => e.failed_records)).sum))
    ∧ (∀ (records : List EventRecord) (uid : String),
        ((aggregate records uid).map (fun row =>
          (row.dataset, row.expectation))).Nodup)
    ∧ aggregate qualityFixture "u1" = [⟨"orders", "valid_id", 15, 3⟩] := by
  refine ⟨?_, ?_, by decide⟩
  · intro records uid row
    obtain ⟨ds, ex, p, f⟩ := row
    constructor
    · intro hrow
      simp only [aggregate, List.mem_map, List.mem_dedup] at hrow
      obtain ⟨k, hk, hrowk⟩ := hrow
      obtain ⟨e, he, hek⟩ := hk
      obtain ⟨hds, hex, hp, hf⟩ := QualityRow.mk.injEq .. ▸ hrowk
      subst hds hex hp hf
      subst hek
      exact ⟨⟨e, he, rfl, rfl⟩, rfl, rfl⟩
    · rintro ⟨⟨e, he, hd, hn⟩, hp, hf⟩
      simp only [aggregate, List.mem_map, List.mem_dedup]
      refine ⟨(ds, ex), ⟨e, he, by rw [hd, hn]⟩, ?_⟩
      simp only [QualityRow.mk.injEq]
      exact ⟨by trivial, by trivial, hp.symm, hf.symm⟩
  · intro records uid
    simp only [aggregate, List.map_map]
    have hcomp : ((fun row : QualityRow => (row.dataset, row.expectation)) ∘
        (fun k : String × String =>
          (⟨k.1, k.2,
            (((explodeExpectations records uid).filter (fun e =>
                e.dataset = k.1 && e.name = k.2)).map
              (fun e => e.passed_records)).sum,
            (((explodeExpectations records uid).filter (fun e =>
                e.dataset = k.1 && e.name = k.2)).map
              (fun e => e.failed_records)).sum⟩ : QualityRow))) = id := by
      funext k
      rfl
    rw [hcomp, List.map_id]
    exact List.nodup_dedup _

/-- Prepending log sections concatenates their exploded expectation rows. -/
theorem explodeExpectations_append (la lb : List EventRecord) (uid : String) :
    explodeExpectations (la ++ lb) uid =
      explodeExpectations la uid ++ explodeExpectations lb uid := by
  simp [explodeExpectations, List.filter_append]

/-- Claim C6: a record whose `details` payload is missing or fails to parse
contributes no rows — removing it from the log leaves the data-quality
result unchanged, so one malformed record never aborts the query. -/
theorem aggregate_skips_malformed (pre post : List EventRecord)
    (bad : EventRecord) (uid : String)
    (h : detailsExpectations bad.details = none) :
    aggregate (pre ++ bad :: post) uid = aggregate (pre ++ post) uid := by
  have hmid : explodeExpectations (bad :: post) uid =
      explodeExpectations post uid := by
    simp only [explodeExpectations, List.filter_cons]
    split
    · rw [List.flatMap_cons, h]
      simp
    · rfl
  have hexp : explodeExpectations (pre ++ bad :: post) uid =
      explodeExpectations (pre ++ post) uid := by
    rw [explodeExpectations_append, explodeExpectations_append, hmid]
  simp only [aggregate]
  rw [hexp]

/-- Claim C6 witness: appending a `flow_progress` record with an unparsable
`details` to the two-record fixture leaves the aggregation unchanged, still
the single row `("orders", "valid_id", 15, 3)`. -/
theorem aggregate_skips_malformed_witness :
    aggregate (qualityFixture ++ malformedRecord :: []) "u1" =
        aggregate (qualityFixture ++ []) "u1" ∧
      aggregate (qualityFixture ++ []) "u1" =
        [⟨"orders", "valid_id", 15, 3⟩] :=
  ⟨aggregate_skips_malformed qualityFixture [] malformedRecord "u1" rfl,
   by decide⟩

/-- Setting one config key leaves the binding of every other key unchanged. -/
theorem conf_get_set_ne (conf : SparkConf) (key v key2 : String)
    (h : key2 ≠ key) :
    conf_get (conf_set conf key v) key2 = conf_get conf key2 := by
  unfold conf_get conf_set
  rw [List.find?_cons_of_neg]
  simp only [decide_eq_true_eq]
  exact fun hh => h hh.symm

/-- Claim C9 counterexample: on a log whose latest update is `u2` and a Spark
config still holding `u1`, the `Set Latest Update ID` cell rewrites the
shared config, and the data-quality cell returns a different result after
that cell has run than before it. -/
theorem latest_update_step_mutates :
    set_latest_update_step stateFixtureLog stateFixtureConf =
        .ok (conf_set stateFixtureConf "latest_update.id" "u2", "u2") ∧
      conf_set stateFixtureConf "latest_update.id" "u2" ≠ stateFixtureConf ∧
      (quality_metrics_step stateFixtureLog
          (conf_set stateFixtureConf "latest_update.id" "u2")).2 ≠
        (quality_metrics_step stateFixtureLog stateFixtureConf).2 := by
  decide

/-- Claim C9 amended: the query cells other than `Set Latest Update ID` leave the
Spark config unchanged and their results are pure functions of the log
snapshot and the one config key they read; the `Set Latest Update ID` cell
writes exactly the shared key `latest_update.id` (every other key keeps its
binding), which is how running it changes the results of the later cells. -/
theorem notebook_state_spec :
    (∀ (log : List EventRecord) (conf : SparkConf) (root : String) (k : Nat),
        (lineage_step log conf root k).1 = conf ∧
          (quality_metrics_step log conf).1 = conf)
    ∧ (∀ (log : List EventRecord) (conf conf2 : SparkConf),
        conf_get conf "latest_update.id" = conf_get conf2 "latest_update.id" →
          (quality_metrics_step log conf).2 =
              (quality_metrics_step log conf2).2 ∧
            ∀ (root : String) (k : Nat),
              (lineage_step log conf root k).2 =
                (lineage_step log conf2 root k).2)
    ∧ (∀ (log : List EventRecord) (conf : SparkConf) (c2 : SparkConf)
          (u : String),
        set_latest_update_step log conf = .ok (c2, u) →
          c2 = conf_set conf "latest_update.id" u ∧
            ∀ key2, key2 ≠ "latest_update.id" →
              conf_get c2 key2 = conf_get conf key2) := by
  refine ⟨fun log conf root k => ⟨rfl, rfl⟩, ?_, ?_⟩
  · intro log conf conf2 h
    constructor
    · simp only [quality_metrics_step, h]
    · intro root k
      simp only [lineage_step, h]
  · intro log conf c2 u hstep
    cases hl : latest_update_id log with
    | error e =>
      rw [set_latest_update_step, hl] at hstep
      exact absurd hstep (by simp [Except.map])
    | ok u0 =>
      rw [set_latest_update_step, hl] at hstep
      simp only [Except.map, Except.ok.injEq, Prod.mk.injEq] at hstep
      obtain ⟨hc, hu⟩ := hstep
      subst hu
      refine ⟨hc.symm, ?_⟩
      intro key2 hk2
      rw [← hc]
      exact conf_get_set_ne conf "latest_update.id" _ key2 hk2

end PipelineEventLog
